import Mathlib

/-!
Verification of the MSD analysis pipeline of `md_spa` (`msd.py`,
`fit_data.py`, `md_spa_utils/data_manipulation.py`).

The Python code computes with IEEE floats; the embedding models the same
computations over the exact reals.  Operations that produce a non-finite
float (`np.log` of a non-positive number, a regression over degenerate
data, a division by a zero degree-of-freedom) are modelled with `Option ℝ`:
`none` stands for the NaN/inf that the float computation produces, and every
comparison against such a value is `False`, matching IEEE comparison
semantics for NaN.  The scipy spline objects (`InterpolatedUnivariateSpline`
and its derivative/root methods) are an external numerical library; they are
modelled as abstract data (the fitted spline's evaluators and root lists)
supplied to the selection logic that `msd.py`/`fit_data.py` build on top of
them.
-/

namespace MdSpa

open scoped Classical

/-- `np.log` as used by `diffusivity`: a non-positive argument yields a
non-finite float (NaN for negative, `-inf` for zero) that poisons the
downstream regression; both are modelled as `none`. -/
noncomputable def nlog (x : ℝ) : Option ℝ :=
  if 0 < x then some (Real.log x) else none

/-- Collect a list of optional reals; `none` if any entry is `none`
(one non-finite input poisons the whole regression). -/
def optAll : List (Option ℝ) → Option (List ℝ)
  | [] => some []
  | none :: _ => none
  | some x :: rest => (optAll rest).map (x :: ·)

/-- Arithmetic mean, `np.mean`. -/
noncomputable def listMean (l : List ℝ) : ℝ := l.sum / l.length

/-- Biased second moment of the first coordinates, `np.cov(x, y, bias=1)`'s
`ssxm` entry as used by `scipy.stats.linregress`. -/
noncomputable def ssxm (pts : List (ℝ × ℝ)) : ℝ :=
  ((pts.map Prod.fst).map (fun v => (v - listMean (pts.map Prod.fst)) ^ 2)).sum / pts.length

/-- Biased second moment of the second coordinates (`ssym`). -/
noncomputable def ssym (pts : List (ℝ × ℝ)) : ℝ :=
  ((pts.map Prod.snd).map (fun v => (v - listMean (pts.map Prod.snd)) ^ 2)).sum / pts.length

/-- Biased mixed moment (`ssxym`). -/
noncomputable def ssxym (pts : List (ℝ × ℝ)) : ℝ :=
  ((pts.map (fun p => (p.1 - listMean (pts.map Prod.fst)) * (p.2 - listMean (pts.map Prod.snd)))).sum) / pts.length

/-- Result of `scipy.stats.linregress`: slope, intercept, correlation
coefficient, standard error of the slope.  `slope`/`intercept`/`stderr` are
`none` exactly when the float computation divides by zero (degenerate x data,
or zero degrees of freedom for `stderr`); `rvalue` is always a float because
scipy replaces the `0/0` case by `0`. -/
structure LinReg where
  slope : Option ℝ
  intercept : Option ℝ
  rvalue : ℝ
  stderr : Option ℝ

/-- `scipy.stats.linregress` on a list of points, in exact arithmetic.
scipy computes `r = ssxym / sqrt(ssxm*ssym)` with the `0` denominator case
set to `0`, `slope = ssxym / ssxm`, `intercept = ymean - slope*xmean`, and
`stderr = sqrt((1 - r^2) * ssym / ssxm / (n - 2))`.  (scipy also clips `r`
to `[-1, 1]`, which is the identity in exact arithmetic.) -/
noncomputable def linregress (pts : List (ℝ × ℝ)) : LinReg :=
  let sxm := ssxm pts
  let sym := ssym pts
  let sxym := ssxym pts
  let r : ℝ := if Real.sqrt (sxm * sym) = 0 then 0 else sxym / Real.sqrt (sxm * sym)
  let slope : Option ℝ := if sxm = 0 then none else some (sxym / sxm)
  let intercept : Option ℝ :=
    slope.map (fun s => listMean (pts.map Prod.snd) - s * listMean (pts.map Prod.fst))
  let stderr : Option ℝ :=
    if sxm = 0 ∨ pts.length ≤ 2 then none
    else some (Real.sqrt ((1 - r ^ 2) * sym / sxm / ((pts.length : ℝ) - 2)))
  ⟨slope, intercept, r, stderr⟩

/-- Output of `md_spa.msd.diffusivity` (single-window primitive):
diffusivity, its standard error, power-law exponent, intercept, and the
coefficient of determination of the log-log fit. -/
structure DiffOut where
  d : Option ℝ
  stderr : Option ℝ
  exponent : Option ℝ
  intercept : Option ℝ
  r2 : Option ℝ

/-- `md_spa.msd.diffusivity`: the exponent and R² come from
`linregress(log(time[1:] - time[0]), log(msd[1:] - msd[0]))`; the
diffusivity (`slope/2/dim`), its standard error, and the intercept come from
`linregress(time, msd)` on the raw window. -/
noncomputable def diffusivity (time msd : List ℝ) (dim : ℕ) : DiffOut :=
  let t0 := time.getD 0 0
  let m0 := msd.getD 0 0
  let xs := (time.drop 1).map (fun v => nlog (v - t0))
  let ys := (msd.drop 1).map (fun v => nlog (v - m0))
  let logfit : Option LinReg :=
    (optAll xs).bind (fun xv => (optAll ys).map (fun yv => linregress (xv.zip yv)))
  let raw := linregress (time.zip msd)
  { d := raw.slope.map (fun s => s / 2 / (dim : ℝ))
    stderr := raw.stderr.map (fun s => s / 2 / (dim : ℝ))
    exponent := logfit.bind LinReg.slope
    intercept := raw.intercept
    r2 := logfit.map (fun l => l.rvalue ^ 2) }

/-- Abstract model of the fitted scipy spline used by
`md_spa.msd.debye_waller`: `val` is the quintic log-log spline, `dval` its
first derivative (`dspline`), `d3val` its third derivative
(`extrema_concavity = dspline.derivative().derivative()`), and `d2roots` the
root list returned by `d2spline.roots()`.  The spline fit itself is the
external numerical library (`scipy.interpolate`); the selection logic built
on top of it is what is embedded. -/
structure SplineData where
  val : ℝ → ℝ
  dval : ℝ → ℝ
  d3val : ℝ → ℝ
  d2roots : List ℝ

/-- The qualifying candidates of `debye_waller`: roots of the second
derivative at which the third derivative is positive, capped at the first
`n_min = 50` (the loop breaks once `i == n_min`). -/
noncomputable def dwQualifying (sp : SplineData) : List ℝ :=
  (sp.d2roots.filter (fun r => decide (0 < sp.d3val r))).take 50

/-- First element of a list achieving the minimum of `f`, i.e.
`np.where(v == np.min(v))[0][0]` applied to `v = f <$> l`; `none` on the
empty list (all array slots left at their NaN/inf initialisation). -/
noncomputable def pickFirstMin (f : ℝ → ℝ) : List ℝ → Option ℝ
  | [] => none
  | a :: rest =>
    match pickFirstMin f rest with
    | none => some a
    | some b => if f a ≤ f b then some a else some b

/-- The candidate-selection stage of `md_spa.msd.debye_waller` (the loop
over `extrema` and the subsequent `ind_min` extraction): among the
qualifying candidates, pick the one with the globally smallest first
derivative value and convert back from log space (`tau = 10**loc`,
`dw = 10**spline(loc)`).  Returns `((dw, tau), warned)`: with no qualifying
candidate the arrays stay at NaN (`none`) and `warnings.warn` fires
(`warned = true`); no exception is raised on that path (the function is
total). -/
noncomputable def debyeWallerSelect (sp : SplineData) : (Option ℝ × Option ℝ) × Bool :=
  match pickFirstMin sp.dval (dwQualifying sp) with
  | none => ((none, none), true)
  | some r => ((some ((10 : ℝ) ^ sp.val r), some ((10 : ℝ) ^ r)), false)

/-- The property C5 claims of the selection: the returned pair is taken from
a qualifying candidate whose first-derivative value is globally smallest,
converted as `tau = 10^location`, `dw = 10^spline(location)`. -/
def DWSelectOk (sp : SplineData) : Prop :=
  ∃ r ∈ dwQualifying sp,
    (∀ s ∈ dwQualifying sp, sp.dval r ≤ sp.dval s) ∧
    debyeWallerSelect sp = ((some ((10 : ℝ) ^ sp.val r), some ((10 : ℝ) ^ r)), false)

/-- Abstract model of the quartic spline of `md_spa.fit_data.pull_extrema`:
`val` is the spline, `d2val` its second derivative (used to classify
critical points), `droots` the root list of the first derivative. -/
structure SplineData4 where
  val : ℝ → ℝ
  d2val : ℝ → ℝ
  droots : List ℝ

/-- The critical points retained after the magnitude cutoff:
`[x for x in extrema if np.abs(spline(x)) > extrema_cutoff]`. -/
noncomputable def peRetained (sp : SplineData4) (cutoff : ℝ) : List ℝ :=
  sp.droots.filter (fun x => decide (cutoff < |sp.val x|))

/-- `md_spa.fit_data.pull_extrema` after the spline fit (the spline fits
themselves are the external scipy primitive): filter the critical points by
the magnitude cutoff, fail with the noisy-data error if more than
`error_length` survive, otherwise classify them by the sign of the second
derivative and collect the inflection points of the quintic spline
(`infl5roots`, filtered by the same cutoff). -/
noncomputable def pullExtrema (sp : SplineData4) (infl5roots : List ℝ)
    (cutoff : ℝ) (error_length : ℕ) :
    Except String (List (ℝ × ℝ) × List (ℝ × ℝ) × List (ℝ × ℝ)) :=
  let extrema := peRetained sp cutoff
  if error_length < extrema.length then
    .error ("Found " ++ toString extrema.length ++
      " extrema, consider smoothing the data with `smooth_sigma` option.")
  else
    let minima := (extrema.filter (fun x => decide (0 < sp.d2val x))).map (fun x => (x, sp.val x))
    let maxima := (extrema.filter (fun x => decide (¬ 0 < sp.d2val x))).map (fun x => (x, sp.val x))
    let infl := (infl5roots.filter (fun x => decide (cutoff < |sp.val x|))).map (fun x => (x, sp.val x))
    .ok (minima, maxima, infl)

/-- Forward discrete Fourier transform of length `N` (`np.fft.fft` with
`n = N` zero-padding handled by the input function):
`X_k = Σ_n x_n exp(-2πi k n / N)`. -/
noncomputable def dft (N : ℕ) (v : ℕ → ℂ) (k : ℕ) : ℂ :=
  ∑ n ∈ Finset.range N, v n * Complex.exp (-(2 * Real.pi * Complex.I) * k * n / N)

/-- Inverse discrete Fourier transform (`np.fft.ifft`):
`x_t = (Σ_k X_k exp(2πi k t / N)) / N`. -/
noncomputable def idft (N : ℕ) (V : ℕ → ℂ) (t : ℕ) : ℂ :=
  (∑ k ∈ Finset.range N, V k * Complex.exp ((2 * Real.pi * Complex.I) * k * t / N)) / N

/-- A real list as a zero-padded complex signal (`np.fft.fft(x, n=2*lx)`
pads with zeros past the end of `x`; `List.getD` supplies exactly those
zeros). -/
noncomputable def padded (x : List ℝ) : ℕ → ℂ := fun n => ((x.getD n 0 : ℝ) : ℂ)

/-- The accumulation array of the `loop` mode of
`md_spa.utils.data_manipulation.autocorrelation`:
`for j in range(lx): Cx[:lx-j] += x[j]*x[j:]`. -/
noncomputable def loopAccum (x : List ℝ) : ℕ → ℝ :=
  (List.range x.length).foldl
    (fun Cx j => fun t => if t < x.length - j then Cx t + x.getD j 0 * x.getD (j + t) 0 else Cx t)
    (fun _ => 0)

/-- Entry `k` of `np.correlate(x, x, mode='full')` (the numpy primitive is
external; its documented semantics is the cross-correlation
`c[k] = Σ_{i - j = k - (L-1)} x_i x_j`, an array of length `2L - 1`). -/
noncomputable def correlateFullEntry (x : List ℝ) (k : ℕ) : ℝ :=
  ∑ j ∈ Finset.range x.length, ∑ i ∈ Finset.range x.length,
    if i + (x.length - 1) = j + k then x.getD i 0 * x.getD j 0 else 0

/-- The three modes of `md_spa.utils.data_manipulation.autocorrelation`. -/
inductive AcMode
  | fft
  | numpy
  | loop

/-- `md_spa.utils.data_manipulation.autocorrelation`: the unnormalised
autocorrelation `Cx` by the selected mode, divided entrywise by
`norm = lx - arange(0, lx)`.
`fft` is `np.fft.ifft(np.abs(np.fft.fft(x, n=2*lx))**2)[:lx].real`;
`numpy` is `np.correlate(x, x, mode='full')[lx-1:]` (the slice retains the
entries at offsets `lx-1+k`); `loop` is the hand-coded double loop. -/
noncomputable def autocorrelation (x : List ℝ) (mode : AcMode) : List ℝ :=
  let Cx : ℕ → ℝ :=
    match mode with
    | .fft => fun k =>
        (idft (2 * x.length)
          (fun j => ((Complex.normSq (dft (2 * x.length) (padded x) j) : ℝ) : ℂ)) k).re
    | .numpy => fun k => correlateFullEntry x (x.length - 1 + k)
    | .loop => loopAccum x
  (List.range x.length).map (fun k => Cx k / ((x.length : ℝ) - k))

/-- The specification's contract for the autocorrelation: a length-`L` list
whose entry `k` is the lag-`k` correlation sum normalised by `L - k`. -/
noncomputable def autocorrSpec (x : List ℝ) : List ℝ :=
  (List.range x.length).map
    (fun k => (∑ j ∈ Finset.range (x.length - k), x.getD j 0 * x.getD (j + k) 0) /
      ((x.length : ℝ) - k))

/-- The standard-error output of `md_spa.msd.msd`: a single float when
`nparticles > 1` (the code's `np.mean(msd, axis=0)/np.sqrt(nparticles)` on a
1-D array is a scalar), or an array of NaN entries (`none`) for a single
particle (`np.nan*np.ones(npts)`). -/
inductive StderrOut
  | scalar (v : ℝ)
  | curve (vs : List (Option ℝ))

/-- Whether the standard-error output is an array (curve) rather than a
single scalar. -/
def StderrOut.isCurve : StderrOut → Bool
  | .scalar _ => false
  | .curve _ => true

/-- Recentring step of `md_spa.msd.msd`:
`coords[i] = coords[i] - coords[i][0]`. -/
noncomputable def recenter (p : List (List ℝ)) : List (List ℝ) :=
  p.map (fun row => List.zipWith (fun a b => a - b) row (p.getD 0 []))

/-- `DSQ` for one particle: per-frame sum of squared coordinates, with the
zero column appended (`np.concatenate((DSQ, np.zeros(...)), axis=1)`). -/
noncomputable def dsqList (p : List (List ℝ)) : List ℝ :=
  (p.map (fun row => (row.map (fun v => v ^ 2)).sum)) ++ [0]

/-- Column `d` of a single particle's trajectory (`particle[:, d]`). -/
noncomputable def col (p : List (List ℝ)) (d : ℕ) : List ℝ :=
  p.map (fun row => row.getD d 0)

/-- `Sab[t]`: sum over the spatial dimensions of the per-dimension
autocorrelation (the `fft` mode is the default `msd` uses). -/
noncomputable def sabFun (p : List (List ℝ)) (dims : ℕ) (t : ℕ) : ℝ :=
  ∑ d ∈ Finset.range dims, (autocorrelation (col p d) AcMode.fft).getD t 0

/-- Per-particle MSD of `md_spa.msd.msd`: the sequential `SUMSQ` update
`SUMSQ -= DSQ[t-1] + DSQ[npts-t]` (Python's index `t-1` at `t = 0` wraps to
the appended zero column, modelled by the `% (npts+1)` index) followed by
`particle_msd[t] = SUMSQ/(npts - t) - 2*Sab[t]`. -/
noncomputable def particleMsd (p : List (List ℝ)) (dims : ℕ) : List ℝ :=
  let npts := p.length
  let q := recenter p
  let dsq := dsqList q
  (((List.range npts).foldl (fun acc t =>
      let s := acc.1 - (dsq.getD ((t + npts) % (npts + 1)) 0 + dsq.getD (npts - t) 0)
      (s, acc.2 ++ [s / ((npts : ℝ) - t) - 2 * sabFun q dims t]))
    ((2 * dsq.sum, ([] : List ℝ)) : ℝ × List ℝ))).2

/-- `md_spa.msd.msd` on a 3-D `(particles × frames × dims)` trajectory (the
source promotes a 2-D input to a one-particle batch, i.e. a singleton list
here, and rejects 1-D input): the ensemble MSD curve (mean over particles)
and the standard error, which the source computes as
`np.mean(msd, axis=0) / np.sqrt(nparticles)` — a scalar, since `msd` is
1-D — when `nparticles > 1`, and as `np.nan*np.ones(npts)` for a single
particle. -/
noncomputable def msd (coords : List (List (List ℝ))) : List ℝ × StderrOut :=
  let nparticles := coords.length
  let npts := (coords.getD 0 []).length
  let dims := ((coords.getD 0 []).getD 0 []).length
  let pm := coords.map (fun p => particleMsd p dims)
  let curve := (List.range npts).map
    (fun t => (pm.map (fun l => l.getD t 0)).sum / (nparticles : ℝ))
  let err := if 1 < nparticles then
      StderrOut.scalar (curve.sum / (curve.length : ℝ) / Real.sqrt (nparticles : ℝ))
    else StderrOut.curve (List.replicate npts none)
  (curve, err)


/-- Parameters of `md_spa.msd.find_diffusivity`; the plotting/verbosity
switches do not affect the returned records and are omitted.  A `None` or
NaN bound is `none` (the source skips a bound in either case). -/
structure FDParams where
  min_exp : ℝ
  min_Npts : ℕ
  skip : ℕ
  dim : ℕ
  use_frac : ℝ
  min_R2 : ℝ
  bounds : Option ℝ × Option ℝ

/-- One region record (a `best`/`longest` row): diffusivity, its standard
error, window start and end times, exponent, intercept, point count.  The
whole record being the all-NaN initialisation is modelled by `Option FitRec`
in the scan state. -/
structure FitRec where
  d : Option ℝ
  stderr : Option ℝ
  t0 : ℝ
  t1 : ℝ
  exponent : Option ℝ
  intercept : Option ℝ
  npts : ℕ

/-- The scan state of `find_diffusivity`: the `best` and `longest` arrays,
`none` being the all-NaN initialisation. -/
structure FDState where
  best : Option FitRec
  longest : Option FitRec

/-- `b < a` where the left operand of the source comparison may be NaN
(modelled `none`); comparisons against NaN are false. -/
def oGt (a : Option ℝ) (b : ℝ) : Prop :=
  match a with
  | some v => b < v
  | none => False

/-- `a ≥ b` with a possibly-NaN left operand. -/
def oGe (a : Option ℝ) (b : ℝ) : Prop :=
  match a with
  | some v => b ≤ v
  | none => False

/-- `|a - 1| < |b - 1|` when both operands are numbers; false if either is
NaN. -/
def oAbsLt1 (a b : Option ℝ) : Prop :=
  match a, b with
  | some u, some v => |u - 1| < |v - 1|
  | _, _ => False

/-- `a ≤ b` where the stored point count may be the NaN initialisation. -/
def oNatLe (a : Option ℕ) (b : ℕ) : Prop :=
  match a with
  | some v => v ≤ b
  | none => False

/-- `a < b` where the stored point count may be the NaN initialisation. -/
def oNatLt (a : Option ℕ) (b : ℕ) : Prop :=
  match a with
  | some v => v < b
  | none => False

/-- The slice `l[i : i+npts]` of a scanned window `w = (npts, i)`. -/
noncomputable def winSlice (l : List ℝ) (w : ℕ × ℕ) : List ℝ := (l.drop w.2).take w.1

/-- The `diffusivity` fit of one scanned window. -/
noncomputable def winDiff (p : FDParams) (time msd : List ℝ) (w : ℕ × ℕ) : DiffOut :=
  diffusivity (winSlice time w) (winSlice msd w) p.dim

/-- The R² gate `r2_tmp > min_R2` of one scanned window (false when the fit
is NaN, as in the float comparison). -/
def winPasses (p : FDParams) (time msd : List ℝ) (w : ℕ × ℕ) : Prop :=
  oGt (winDiff p time msd w).r2 p.min_R2

/-- The candidate record
`[d_tmp, stder_tmp, t_tmp[0], t_tmp[-1], exp_tmp, intercept, npts]` of one
scanned window. -/
noncomputable def winRec (p : FDParams) (time msd : List ℝ) (w : ℕ × ℕ) : FitRec :=
  { d := (winDiff p time msd w).d
    stderr := (winDiff p time msd w).stderr
    t0 := (winSlice time w).getD 0 0
    t1 := (winSlice time w).getD (w.1 - 1) 0
    exponent := (winDiff p time msd w).exponent
    intercept := (winDiff p time msd w).intercept
    npts := w.1 }

/-- The body of the nested scan loops of `find_diffusivity`: if the R² gate
passes, conditionally overwrite `best`
(`|exp - 1| < |best[4] - 1| or isnan(best[4])`), then conditionally
overwrite `longest`
(`(exp >= min_exp and longest[-1] <= npts) or isnan(longest[4])`, then
`(longest[-1] < npts or |longest[4] - 1| > |exp - 1|) or isnan(longest[4])`),
with every NaN comparison false. -/
noncomputable def fdStep (p : FDParams) (time msd : List ℝ) (s : FDState) (w : ℕ × ℕ) :
    FDState :=
  if winPasses p time msd w then
    let out := winDiff p time msd w
    let rec0 := winRec p time msd w
    let s1 : FDState :=
      if oAbsLt1 out.exponent (s.best.bind FitRec.exponent) ∨
          (s.best.bind FitRec.exponent) = none
      then ⟨some rec0, s.longest⟩ else s
    if (oGe out.exponent p.min_exp ∧ oNatLe (s1.longest.map FitRec.npts) w.1) ∨
        (s1.longest.bind FitRec.exponent) = none then
      if (oNatLt (s1.longest.map FitRec.npts) w.1 ∨
          oAbsLt1 out.exponent (s1.longest.bind FitRec.exponent)) ∨
          (s1.longest.bind FitRec.exponent) = none
      then ⟨s1.best, some rec0⟩ else s1
    else s1
  else s

/-- Python's `range(a, b, s)` for a step `s ≥ 1` (empty for `s = 0`, a case
the source rejects at runtime). -/
def rangeStep (a b s : ℕ) : List ℕ :=
  (List.range ((b - a + s - 1) / s)).map (fun j => a + s * j)

/-- The scanned windows `(npts, i)` in scan order:
`for npts in range(min_Npts, len(time), skip):
for i in range(0, len(time)-npts, skip)`. -/
def fdWindows (n minN skipv : ℕ) : List (ℕ × ℕ) :=
  (rangeStep minN n skipv).flatMap
    (fun npts => (rangeStep 0 (n - npts) skipv).map (fun i => (npts, i)))

/-- The soft auto-correction
`if min_Npts > len(time): min_Npts = len(time) - 1` (with a warning). -/
def effMinNpts (minN n : ℕ) : ℕ := if n < minN then n - 1 else minN

/-- The full window scan of `find_diffusivity` over the preprocessed
data. -/
noncomputable def fdScan (p : FDParams) (time msd : List ℝ) : FDState :=
  (fdWindows time.length (effMinNpts p.min_Npts time.length) p.skip).foldl
    (fdStep p time msd) ⟨none, none⟩

/-- Preprocessing of `find_diffusivity`: truncate both arrays to the first
`int(len(time)*use_frac)` samples, then clip by the bounds.  The lower clip
keeps `time[ind:]` from the first index with `time > t_min`; the upper clip
keeps `time[:ind]` where `ind` is the FIRST index with `time < t_max`
(`inds[0]`), exactly as the source computes it; a bound whose `np.where`
result is empty raises the corresponding `ValueError`. -/
noncomputable def fdPrep (p : FDParams) (time msd : List ℝ) :
    Except String (List ℝ × List ℝ) :=
  let n := (⌊(time.length : ℝ) * p.use_frac⌋).toNat
  let t1 := time.take n
  let m1 := msd.take n
  let step1 : Except String (List ℝ × List ℝ) :=
    match p.bounds.1 with
    | none => .ok (t1, m1)
    | some b =>
      if (t1.filter (fun v => decide (b < v))).length ≠ 0 then
        .ok (t1.drop (t1.findIdx (fun v => decide (b < v))),
             m1.drop (t1.findIdx (fun v => decide (b < v))))
      else .error "Provided minimum in time is greater that the time interval provided"
  match step1 with
  | .error e => .error e
  | .ok (t2, m2) =>
    match p.bounds.2 with
    | none => .ok (t2, m2)
    | some b =>
      if (t2.filter (fun v => decide (v < b))).length ≠ 0 then
        .ok (t2.take (t2.findIdx (fun v => decide (v < b))),
             m2.take (t2.findIdx (fun v => decide (v < b))))
      else .error "Provided maximum in time is greater that the time interval provided"

/-- `md_spa.msd.find_diffusivity`: validate the lengths, preprocess, adjust
`min_Npts`, scan every window, return `(best, longest)`. -/
noncomputable def findDiffusivity (p : FDParams) (time msd : List ℝ) :
    Except String FDState :=
  if msd.length ≠ time.length then
    .error "Arrays for time and msd are not of equal length."
  else (fdPrep p time msd).map (fun tm => fdScan p tm.1 tm.2)

/-- The exponent entry of the returned `longest` record (`none` = NaN or an
error). -/
noncomputable def fdLongestExp (e : Except String FDState) : Option ℝ :=
  match e with
  | .ok s => s.longest.bind FitRec.exponent
  | .error _ => none

/-- C7's property of the scan: a non-NaN `best` is the record of a
gate-passing scanned window, holds at least the (auto-corrected) minimum
number of points, and its exponent is closest to 1.0 in absolute difference
among all gate-passing scanned windows, regardless of window length. -/
def BestOk (p : FDParams) (time msd : List ℝ) : Prop :=
  ∀ r, (fdScan p time msd).best = some r →
    ∃ w ∈ fdWindows time.length (effMinNpts p.min_Npts time.length) p.skip,
      winPasses p time msd w ∧ r = winRec p time msd w ∧
      effMinNpts p.min_Npts time.length ≤ w.1 ∧
      ∃ e, r.exponent = some e ∧
        ∀ w2 ∈ fdWindows time.length (effMinNpts p.min_Npts time.length) p.skip,
          winPasses p time msd w2 →
          ∃ e2, (winDiff p time msd w2).exponent = some e2 ∧ |e - 1| ≤ |e2 - 1|

/-- The amended C2 property of the scan: (i) `longest` is all-NaN exactly
when no scanned window passed the R² gate; (ii) when set, it is the record
of some gate-passing scanned window — whose exponent may be below
`min_exp`, because the first gate-passer seeds the record unconditionally;
(iii) when every gate-passing window has exponent at least `min_exp`, the
record has the most points among the gate-passers, with ties preferring the
exponent closest to 1.0. -/
def LongestOk (p : FDParams) (time msd : List ℝ) : Prop :=
  ((fdScan p time msd).longest = none ↔
    ∀ w ∈ fdWindows time.length (effMinNpts p.min_Npts time.length) p.skip,
      ¬ winPasses p time msd w) ∧
  (∀ r, (fdScan p time msd).longest = some r →
    ∃ w ∈ fdWindows time.length (effMinNpts p.min_Npts time.length) p.skip,
      winPasses p time msd w ∧ r = winRec p time msd w) ∧
  ((∀ w ∈ fdWindows time.length (effMinNpts p.min_Npts time.length) p.skip,
      winPasses p time msd w → oGe (winDiff p time msd w).exponent p.min_exp) →
    ∀ r, (fdScan p time msd).longest = some r →
      (∀ w ∈ fdWindows time.length (effMinNpts p.min_Npts time.length) p.skip,
        winPasses p time msd w → w.1 ≤ r.npts) ∧
      (∀ w ∈ fdWindows time.length (effMinNpts p.min_Npts time.length) p.skip,
        winPasses p time msd w → w.1 = r.npts →
        ∃ e e2, r.exponent = some e ∧ (winDiff p time msd w).exponent = some e2 ∧
          |e - 1| ≤ |e2 - 1|))

/-- Example parameters for `find_diffusivity`: the default `min_exp`,
`min_R2`, `skip`, `dim`, `use_frac` and bounds, with `min_Npts = 3`. -/
noncomputable def fdExampleParams : FDParams :=
  { min_exp := 0.991, min_Npts := 3, skip := 1, dim := 3, use_frac := 1,
    min_R2 := 0.97, bounds := (none, none) }

/-- Example time series for the `find_diffusivity` claims. -/
noncomputable def timeEx : List ℝ := [0, 1, 16, 17]

/-- Example MSD series for the `find_diffusivity` claims: on the single
scanned window (points 0-2) the differences fit
`msd - msd[0] = (t - t[0])^(3/4)` exactly, so its log-log fit has R² = 1
and exponent 3/4 below `min_exp`; no other window is scanned. -/
noncomputable def msdEx : List ℝ := [1, 2, 9, 1 / 2]

/-- Invariant of the scan fold for the `best` record over the processed
prefix `acc`: `best` is unset exactly as long as no processed window passed
the gate, and otherwise holds the record of a gate-passing processed window
whose exponent is weakly closest to 1 among the processed gate-passers. -/
def BestInv (p : FDParams) (time msd : List ℝ) (acc : List (ℕ × ℕ)) (s : FDState) : Prop :=
  (s.best = none → ∀ w ∈ acc, ¬ winPasses p time msd w) ∧
  (∀ r, s.best = some r →
    ∃ w ∈ acc, winPasses p time msd w ∧ r = winRec p time msd w ∧
      ∃ e, r.exponent = some e ∧
        ∀ w2 ∈ acc, winPasses p time msd w2 →
          ∃ e2, (winDiff p time msd w2).exponent = some e2 ∧ |e - 1| ≤ |e2 - 1|)

/-- Invariant of the scan fold for the `longest` record (parts (i)-(ii) of
the amended claim): unset iff no processed window passed the gate, else the
record of a gate-passing processed window with a numeric exponent. -/
def LongInv (p : FDParams) (time msd : List ℝ) (acc : List (ℕ × ℕ)) (s : FDState) : Prop :=
  (s.longest = none ↔ ∀ w ∈ acc, ¬ winPasses p time msd w) ∧
  (∀ r, s.longest = some r →
    ∃ w ∈ acc, winPasses p time msd w ∧ r = winRec p time msd w ∧ ∃ e, r.exponent = some e)

/-- Strengthened invariant for part (iii) of the amended claim, valid when
every processed gate-passer qualifies (`exp ≥ min_exp`): the stored record
has maximal point count among processed gate-passers, and among those at
the same point count a weakly minimal `|exp - 1|`. -/
def LongInv3 (p : FDParams) (time msd : List ℝ) (acc : List (ℕ × ℕ)) (s : FDState) : Prop :=
  LongInv p time msd acc s ∧
  (∀ r, s.longest = some r →
    (∀ w2 ∈ acc, winPasses p time msd w2 → w2.1 ≤ r.npts) ∧
    (∀ w2 ∈ acc, winPasses p time msd w2 → w2.1 = r.npts →
      ∃ e e2, r.exponent = some e ∧ (winDiff p time msd w2).exponent = some e2 ∧
        |e - 1| ≤ |e2 - 1|))

end MdSpa

namespace MdSpa

open scoped Classical

theorem optAll_eq_none_of_mem {l : List (Option ℝ)} (h : none ∈ l) : optAll l = none := by
  induction l with
  | nil => simp at h
  | cons hd tl ih =>
    cases hd with
    | none => rfl
    | some x =>
      rcases List.mem_cons.mp h with h1 | h1
      · exact absurd h1 (by simp)
      · simp only [optAll, ih h1, Option.map_none']

/-- C10: if some later msd value in the window does not exceed the window's
first msd value, the log-log regression input contains the log of a
non-positive number, and the fitted exponent and R² are non-finite. -/
theorem c10_log_diff_nonpositive (time msd : List ℝ) (dim : ℕ) (i : ℕ)
    (hi : 1 ≤ i) (hilt : i < msd.length)
    (hle : msd.getD i 0 ≤ msd.getD 0 0) :
    (diffusivity time msd dim).exponent = none ∧ (diffusivity time msd dim).r2 = none := by
  have hy : optAll ((msd.drop 1).map (fun v => nlog (v - msd.getD 0 0))) = none := by
    apply optAll_eq_none_of_mem
    have h1 : i - 1 < (msd.drop 1).length := by
      rw [List.length_drop]; omega
    have h2 : (msd.drop 1).get ⟨i - 1, h1⟩ = msd.getD i 0 := by
      simp only [List.get_eq_getElem]
      rw [List.getElem_drop, List.getD_eq_getElem msd 0 hilt]
      congr 1
      omega
    have h3 : nlog ((msd.drop 1).get ⟨i - 1, h1⟩ - msd.getD 0 0) = none := by
      rw [h2, nlog, if_neg]
      simp only [not_lt]
      linarith
    rw [← h3]
    exact List.mem_map_of_mem _ (List.get_mem _ _ h1)
  unfold diffusivity
  simp only [hy]
  constructor
  · cases optAll ((time.drop 1).map (fun v => nlog (v - time.getD 0 0))) <;> rfl
  · cases optAll ((time.drop 1).map (fun v => nlog (v - time.getD 0 0))) <;> rfl

/-- Witness for C10 at a concrete window: `time = [0,1,2]`,
`msd = [2,3,2]` has all msd values strictly positive yet `msd[2] ≤ msd[0]`,
and the fitted exponent and R² are non-finite. -/
theorem c10_witness :
    (1 ≤ 2 ∧ 2 < ([2, 3, 2] : List ℝ).length ∧
      ([2, 3, 2] : List ℝ).getD 2 0 ≤ ([2, 3, 2] : List ℝ).getD 0 0) ∧
    ((diffusivity [0, 1, 2] [2, 3, 2] 3).exponent = none ∧
      (diffusivity [0, 1, 2] [2, 3, 2] 3).r2 = none) :=
  ⟨⟨by norm_num, by norm_num, by norm_num⟩,
    c10_log_diff_nonpositive [0, 1, 2] [2, 3, 2] 3 2 (by norm_num) (by norm_num) (by norm_num)⟩

theorem pickFirstMin_eq_none (f : ℝ → ℝ) (l : List ℝ) :
    pickFirstMin f l = none ↔ l = [] := by
  induction l with
  | nil => simp [pickFirstMin]
  | cons a rest ih =>
    rw [pickFirstMin]
    cases pickFirstMin f rest with
    | none => simp
    | some b =>
      by_cases hc : f a ≤ f b <;> simp [hc]

theorem pickFirstMin_mem_and_min (f : ℝ → ℝ) :
    ∀ (l : List ℝ) (r : ℝ), pickFirstMin f l = some r → r ∈ l ∧ ∀ s ∈ l, f r ≤ f s := by
  intro l
  induction l with
  | nil => intro r h; simp [pickFirstMin] at h
  | cons a rest ih =>
    intro r h
    rw [pickFirstMin] at h
    split at h
    · rename_i hrest
      have hnil : rest = [] := (pickFirstMin_eq_none f rest).mp hrest
      subst hnil
      simp only [Option.some.injEq] at h
      subst h
      exact ⟨List.mem_cons_self a [], by intro s hs; simp at hs; rw [hs]⟩
    · rename_i b hrest
      obtain ⟨hbmem, hbmin⟩ := ih b hrest
      by_cases hab : f a ≤ f b
      · rw [if_pos hab] at h
        simp only [Option.some.injEq] at h
        subst h
        refine ⟨List.mem_cons_self a rest, ?_⟩
        intro s hs
        rcases List.mem_cons.mp hs with h1 | h1
        · rw [h1]
        · exact le_trans hab (hbmin s h1)
      · rw [if_neg hab] at h
        simp only [Option.some.injEq] at h
        subst h
        refine ⟨List.mem_cons_of_mem a hbmem, ?_⟩
        intro s hs
        rcases List.mem_cons.mp hs with h1 | h1
        · rw [h1]; exact le_of_not_le hab
        · exact hbmin s h1

/-- C5: with at least one qualifying candidate (a second-derivative root
with positive third derivative, from the first 50 such), `debye_waller`
selects a candidate with the globally smallest first-derivative value and
returns `dw = 10^spline(location)`, `tau = 10^location`. -/
theorem c5_debye_waller_selection (sp : SplineData) (h : dwQualifying sp ≠ []) :
    DWSelectOk sp := by
  cases hp : pickFirstMin sp.dval (dwQualifying sp) with
  | none => exact absurd ((pickFirstMin_eq_none _ _).mp hp) h
  | some r =>
    obtain ⟨hmem, hmin⟩ := pickFirstMin_mem_and_min _ _ _ hp
    exact ⟨r, hmem, hmin, by rw [debyeWallerSelect, hp]⟩

/-- Witness for C5 at a concrete spline model: the identity spline with
constant positive third derivative and candidate roots `[2, 3]`; both
qualify and the selection returns the one with the smaller slope value. -/
theorem c5_witness :
    dwQualifying ⟨fun x => x, fun x => x, fun _ => 1, [2, 3]⟩ ≠ [] ∧
    DWSelectOk ⟨fun x => x, fun x => x, fun _ => 1, [2, 3]⟩ :=
  have hq : dwQualifying ⟨fun x => x, fun x => x, fun _ => 1, [2, 3]⟩ ≠ [] := by
    rw [dwQualifying]
    simp only [List.filter_cons, List.filter_nil, decide_eq_true_eq]
    norm_num
    simp
  ⟨hq, c5_debye_waller_selection _ hq⟩

/-- C6: with no qualifying candidate the arrays stay at their NaN
initialisation, so `debye_waller` returns `(NaN, NaN)` and emits a warning;
that code path raises no exception (the selection is total). -/
theorem c6_debye_waller_no_candidate (sp : SplineData) (h : dwQualifying sp = []) :
    debyeWallerSelect sp = ((none, none), true) := by
  rw [debyeWallerSelect, h]
  rfl

/-- Witness for C6: a spline model whose third derivative is everywhere
negative has no qualifying candidate and yields `((NaN, NaN), warned)`. -/
theorem c6_witness :
    dwQualifying ⟨fun x => x, fun x => x, fun _ => -1, [5]⟩ = [] ∧
    debyeWallerSelect ⟨fun x => x, fun x => x, fun _ => -1, [5]⟩ = ((none, none), true) :=
  have hq : dwQualifying ⟨fun x => x, fun x => x, fun _ => -1, [5]⟩ = [] := by
    rw [dwQualifying]
    simp only [List.filter_cons, List.filter_nil, decide_eq_true_eq]
    norm_num
  ⟨hq, c6_debye_waller_no_candidate _ hq⟩

/-- C9: when more critical points survive the magnitude cutoff than
`error_length` (default 25), `pull_extrema` fails with the explicit error
that names the number of extrema found and advises smoothing via
`smooth_sigma`, instead of returning the extrema. -/
theorem c9_pull_extrema_error (sp : SplineData4) (infl5roots : List ℝ)
    (cutoff : ℝ) (error_length : ℕ)
    (h : error_length < (peRetained sp cutoff).length) :
    pullExtrema sp infl5roots cutoff error_length =
      .error ("Found " ++ toString (peRetained sp cutoff).length ++
        " extrema, consider smoothing the data with `smooth_sigma` option.") := by
  rw [pullExtrema, if_pos h]

/-- Witness for C9: a constant spline value 1 with 26 critical points and
cutoff 0 retains all 26 points, exceeding the default threshold 25, and the
call returns the noisy-data error. -/
theorem c9_witness :
    25 < (peRetained ⟨fun _ => 1, fun _ => 1, (List.range 26).map (Nat.cast)⟩ 0).length ∧
    pullExtrema ⟨fun _ => 1, fun _ => 1, (List.range 26).map (Nat.cast)⟩ [] 0 25 =
      .error ("Found " ++
        toString (peRetained ⟨fun _ => 1, fun _ => 1, (List.range 26).map (Nat.cast)⟩ 0).length ++
        " extrema, consider smoothing the data with `smooth_sigma` option.") :=
  have hlen : (peRetained ⟨fun _ => 1, fun _ => 1, (List.range 26).map (Nat.cast)⟩ 0).length = 26 := by
    rw [peRetained]
    rw [List.filter_eq_self.mpr]
    · simp
    · intro a _
      norm_num
  ⟨by rw [hlen]; norm_num, c9_pull_extrema_error _ _ _ _ (by rw [hlen]; norm_num)⟩

theorem sum_exp_orth (N : ℕ) (hN : 0 < N) (d : ℤ) :
    ∑ k ∈ Finset.range N, Complex.exp ((2 * Real.pi * Complex.I) * d * k / N)
      = if (N : ℤ) ∣ d then (N : ℂ) else 0 := by
  have hNC : (N : ℂ) ≠ 0 := Nat.cast_ne_zero.mpr hN.ne'
  have h2pi : (2 * (Real.pi : ℂ) * Complex.I) ≠ 0 := by
    simp [Real.pi_ne_zero, Complex.I_ne_zero, Complex.ofReal_ne_zero]
  set z : ℂ := Complex.exp ((2 * Real.pi * Complex.I) * d / N) with hzdef
  have hz : ∀ k : ℕ, Complex.exp ((2 * Real.pi * Complex.I) * d * k / N) = z ^ k := by
    intro k
    rw [hzdef, ← Complex.exp_nat_mul]
    congr 1
    field_simp
    ring
  simp_rw [hz]
  by_cases hdvd : (N : ℤ) ∣ d
  · obtain ⟨m, hm⟩ := hdvd
    have hz1 : z = 1 := by
      rw [hzdef, hm]
      have harg : (2 * (Real.pi : ℂ) * Complex.I) * (((N : ℤ) * m : ℤ) : ℂ) / N
          = (m : ℂ) * (2 * Real.pi * Complex.I) := by
        push_cast
        field_simp
        ring
      rw [harg, Complex.exp_int_mul_two_pi_mul_I]
    rw [if_pos ⟨m, hm⟩]
    simp [hz1]
  · have hz1 : z ≠ 1 := by
      intro hcon
      rcases Complex.exp_eq_one_iff.mp hcon with ⟨m, hm⟩
      apply hdvd
      have h4 : (d : ℂ) = m * N := by
        rw [div_eq_iff hNC] at hm
        have h6 : (2 * (Real.pi : ℂ) * Complex.I) * d
            = (2 * (Real.pi : ℂ) * Complex.I) * (m * N) := by linear_combination hm
        exact mul_left_cancel₀ h2pi h6
      have h5 : d = m * N := by exact_mod_cast h4
      exact ⟨m, by rw [h5]; ring⟩
    rw [if_neg hdvd, geom_sum_eq hz1]
    have hzN : z ^ N = 1 := by
      rw [hzdef, ← Complex.exp_nat_mul]
      have harg : (N : ℂ) * ((2 * Real.pi * Complex.I) * d / N)
          = (d : ℂ) * (2 * Real.pi * Complex.I) := by
        field_simp
        ring
      rw [harg, Complex.exp_int_mul_two_pi_mul_I]
    rw [hzN]
    simp

theorem idft_power (N : ℕ) (hN : 0 < N) (x : List ℝ) (t : ℕ) :
    idft N (fun j => ((Complex.normSq (dft N (padded x) j) : ℝ) : ℂ)) t
      = ((∑ m ∈ Finset.range N, x.getD m 0 * x.getD ((m + t) % N) 0 : ℝ) : ℂ) := by
  have hNC : (N : ℂ) ≠ 0 := Nat.cast_ne_zero.mpr hN.ne'
  have hconj : ∀ k : ℕ, (starRingEnd ℂ) (dft N (padded x) k)
      = ∑ m ∈ Finset.range N, (x.getD m 0 : ℂ) *
          Complex.exp ((2 * Real.pi * Complex.I) * k * m / N) := by
    intro k
    unfold dft padded
    rw [map_sum]
    refine Finset.sum_congr rfl (fun m _ => ?_)
    rw [map_mul, ← Complex.exp_conj]
    congr 1
    · exact Complex.conj_ofReal _
    · rw [map_div₀]
      simp only [map_mul, map_neg, Complex.conj_I, map_ofNat, Complex.conj_ofReal,
        map_natCast]
      ring
  have hpow : ∀ k : ℕ,
      ((Complex.normSq (dft N (padded x) k) : ℝ) : ℂ) *
        Complex.exp ((2 * Real.pi * Complex.I) * k * t / N)
      = ∑ m ∈ Finset.range N, ∑ n ∈ Finset.range N,
          (x.getD m 0 : ℂ) * x.getD n 0 *
            Complex.exp ((2 * Real.pi * Complex.I) * (((n : ℤ) + t - m : ℤ) : ℂ) * k / N) := by
    intro k
    rw [← Complex.mul_conj (dft N (padded x) k)]
    rw [hconj k]
    conv_lhs => rw [dft]
    rw [Finset.sum_mul_sum, Finset.sum_mul]
    refine Finset.sum_congr rfl (fun m _ => ?_)
    rw [Finset.sum_mul]
    refine Finset.sum_congr rfl (fun n _ => ?_)
    have hsplit : padded x m * Complex.exp (-(2 * Real.pi * Complex.I) * k * m / N) *
          ((x.getD n 0 : ℂ) * Complex.exp ((2 * Real.pi * Complex.I) * k * n / N)) *
          Complex.exp ((2 * Real.pi * Complex.I) * k * t / N)
        = (x.getD m 0 : ℂ) * x.getD n 0 *
            (Complex.exp (-(2 * Real.pi * Complex.I) * k * m / N) *
              (Complex.exp ((2 * Real.pi * Complex.I) * k * n / N) *
                Complex.exp ((2 * Real.pi * Complex.I) * k * t / N))) := by
      unfold padded
      ring
    rw [hsplit, ← Complex.exp_add, ← Complex.exp_add]
    congr 2
    push_cast
    field_simp
    ring
  have hdiv : ∀ n m : ℕ, m < N → (((N : ℤ) ∣ ((n : ℤ) + t - m)) ↔ m = (n + t) % N) := by
    intro n m hm
    constructor
    · intro hd
      have hmq : m ≡ n + t [MOD N] := by
        rw [Nat.modEq_iff_dvd]
        push_cast
        convert hd using 1
      have h2 := hmq
      unfold Nat.ModEq at h2
      rw [Nat.mod_eq_of_lt hm] at h2
      exact h2
    · intro he
      subst he
      have hmq : (n + t) % N ≡ n + t [MOD N] := Nat.mod_modEq _ _
      have h2 := (Nat.modEq_iff_dvd).mp hmq
      push_cast at h2 ⊢
      convert h2 using 1
  unfold idft
  have h1 : (∑ k ∈ Finset.range N,
        ((Complex.normSq (dft N (padded x) k) : ℝ) : ℂ) *
          Complex.exp ((2 * Real.pi * Complex.I) * k * t / N))
      = ∑ n ∈ Finset.range N, ∑ m ∈ Finset.range N, ∑ k ∈ Finset.range N,
          (x.getD m 0 : ℂ) * x.getD n 0 *
            Complex.exp ((2 * Real.pi * Complex.I) * (((n : ℤ) + t - m : ℤ) : ℂ) * k / N) := by
    have hpow2 : ∀ k : ℕ,
        ((Complex.normSq (dft N (padded x) k) : ℝ) : ℂ) *
          Complex.exp ((2 * Real.pi * Complex.I) * k * t / N)
        = ∑ n ∈ Finset.range N, ∑ m ∈ Finset.range N,
            (x.getD m 0 : ℂ) * x.getD n 0 *
              Complex.exp ((2 * Real.pi * Complex.I) * (((n : ℤ) + t - m : ℤ) : ℂ) * k / N) :=
      fun k => (hpow k).trans Finset.sum_comm
    rw [Finset.sum_congr rfl (fun k _ => hpow2 k)]
    rw [Finset.sum_comm]
    refine Finset.sum_congr rfl (fun n _ => ?_)
    rw [Finset.sum_comm]
  have h2 : ∀ n ∈ Finset.range N, (∑ m ∈ Finset.range N, ∑ k ∈ Finset.range N,
        (x.getD m 0 : ℂ) * x.getD n 0 *
          Complex.exp ((2 * Real.pi * Complex.I) * (((n : ℤ) + t - m : ℤ) : ℂ) * k / N))
      = (x.getD ((n + t) % N) 0 : ℂ) * x.getD n 0 * N := by
    intro n _
    have hterm : ∀ m ∈ Finset.range N, (∑ k ∈ Finset.range N,
          (x.getD m 0 : ℂ) * x.getD n 0 *
            Complex.exp ((2 * Real.pi * Complex.I) * (((n : ℤ) + t - m : ℤ) : ℂ) * k / N))
        = (x.getD m 0 : ℂ) * x.getD n 0 *
            (if (N : ℤ) ∣ ((n : ℤ) + t - m) then (N : ℂ) else 0) := by
      intro m _
      rw [← Finset.mul_sum, sum_exp_orth N hN ((n : ℤ) + t - m)]
    rw [Finset.sum_congr rfl hterm]
    rw [Finset.sum_eq_single ((n + t) % N)]
    · rw [if_pos ((hdiv n ((n + t) % N) (Nat.mod_lt _ hN)).mpr rfl)]
    · intro b hb hbne
      rw [if_neg, mul_zero]
      intro hd
      exact hbne ((hdiv n b (Finset.mem_range.mp hb)).mp hd)
    · intro habs
      exact absurd (Finset.mem_range.mpr (Nat.mod_lt _ hN)) habs
  rw [h1, Finset.sum_congr rfl h2]
  rw [Complex.ofReal_sum]
  rw [Finset.sum_div]
  refine Finset.sum_congr rfl (fun m _ => ?_)
  rw [Complex.ofReal_mul]
  field_simp
  ring

theorem acFFT_entry (x : List ℝ) (k : ℕ) (hk : k < x.length) :
    (idft (2 * x.length)
       (fun j => ((Complex.normSq (dft (2 * x.length) (padded x) j) : ℝ) : ℂ)) k).re
    = ∑ j ∈ Finset.range (x.length - k), x.getD j 0 * x.getD (j + k) 0 := by
  have hN : 0 < 2 * x.length := by omega
  rw [idft_power (2 * x.length) hN x k, Complex.ofReal_re]
  have hsub : Finset.range (x.length - k) ⊆ Finset.range (2 * x.length) :=
    Finset.range_subset.mpr (by omega)
  have hvanish : ∀ m ∈ Finset.range (2 * x.length), m ∉ Finset.range (x.length - k) →
      x.getD m 0 * x.getD ((m + k) % (2 * x.length)) 0 = 0 := by
    intro m hm hnot
    rw [Finset.mem_range] at hm
    rw [Finset.mem_range, not_lt] at hnot
    by_cases hmL : x.length ≤ m
    · rw [List.getD_eq_default _ _ hmL, zero_mul]
    · push_neg at hmL
      have hmod : (m + k) % (2 * x.length) = m + k := Nat.mod_eq_of_lt (by omega)
      rw [hmod, List.getD_eq_default _ _ (by omega : x.length ≤ m + k), mul_zero]
  rw [← Finset.sum_subset hsub hvanish]
  refine Finset.sum_congr rfl (fun m hm => ?_)
  rw [Finset.mem_range] at hm
  rw [Nat.mod_eq_of_lt (by omega : m + k < 2 * x.length)]

theorem loopAccum_eq (x : List ℝ) (t : ℕ) (ht : t < x.length) :
    loopAccum x t = ∑ j ∈ Finset.range (x.length - t), x.getD j 0 * x.getD (j + t) 0 := by
  have key : ∀ m : ℕ,
      ((List.range m).foldl
        (fun Cx j => fun s => if s < x.length - j then Cx s + x.getD j 0 * x.getD (j + s) 0 else Cx s)
        (fun _ => 0)) t
      = ∑ j ∈ Finset.range m, (if j + t < x.length then x.getD j 0 * x.getD (j + t) 0 else 0) := by
    intro m
    induction m with
    | zero => simp
    | succ m ih =>
      rw [List.range_succ, List.foldl_append, List.foldl_cons, List.foldl_nil]
      rw [Finset.sum_range_succ, ← ih]
      by_cases hc : t < x.length - m
      · rw [if_pos hc, if_pos (by omega)]
      · rw [if_neg hc, if_neg (by omega), add_zero]
  rw [loopAccum, key x.length]
  have hsub : Finset.range (x.length - t) ⊆ Finset.range x.length :=
    Finset.range_subset.mpr (by omega)
  have hvanish : ∀ j ∈ Finset.range x.length, j ∉ Finset.range (x.length - t) →
      (if j + t < x.length then x.getD j 0 * x.getD (j + t) 0 else 0) = 0 := by
    intro j hj hnot
    rw [Finset.mem_range, not_lt] at hnot
    rw [if_neg (by omega)]
  rw [← Finset.sum_subset hsub hvanish]
  refine Finset.sum_congr rfl (fun j hj => ?_)
  rw [Finset.mem_range] at hj
  rw [if_pos (by omega)]

theorem correlateFull_entry_eq (x : List ℝ) (k : ℕ) (hk : k < x.length) :
    correlateFullEntry x (x.length - 1 + k)
      = ∑ j ∈ Finset.range (x.length - k), x.getD j 0 * x.getD (j + k) 0 := by
  unfold correlateFullEntry
  have hinner : ∀ j ∈ Finset.range x.length,
      (∑ i ∈ Finset.range x.length,
        if i + (x.length - 1) = j + (x.length - 1 + k) then x.getD i 0 * x.getD j 0 else 0)
      = (if j + k < x.length then x.getD (j + k) 0 * x.getD j 0 else 0) := by
    intro j hj
    have hcond : ∀ i : ℕ, (i + (x.length - 1) = j + (x.length - 1 + k)) ↔ i = j + k := by
      intro i
      omega
    rw [Finset.sum_congr rfl (fun i _ => if_congr (hcond i) rfl rfl)]
    rw [Finset.sum_ite_eq' (Finset.range x.length) (j + k) (fun i => x.getD i 0 * x.getD j 0)]
    exact if_congr Finset.mem_range rfl rfl
  rw [Finset.sum_congr rfl hinner]
  have hsub : Finset.range (x.length - k) ⊆ Finset.range x.length :=
    Finset.range_subset.mpr (by omega)
  have hvanish : ∀ j ∈ Finset.range x.length, j ∉ Finset.range (x.length - k) →
      (if j + k < x.length then x.getD (j + k) 0 * x.getD j 0 else 0) = 0 := by
    intro j hj hnot
    rw [Finset.mem_range, not_lt] at hnot
    rw [if_neg (by omega)]
  rw [← Finset.sum_subset hsub hvanish]
  refine Finset.sum_congr rfl (fun j hj => ?_)
  rw [Finset.mem_range] at hj
  rw [if_pos (by omega), mul_comm]

theorem autocorrelation_eq_spec (x : List ℝ) (mode : AcMode) :
    autocorrelation x mode = autocorrSpec x := by
  unfold autocorrelation autocorrSpec
  cases mode with
  | fft =>
    refine List.map_congr_left (fun k hk => ?_)
    rw [List.mem_range] at hk
    dsimp only
    rw [acFFT_entry x k hk]
  | numpy =>
    refine List.map_congr_left (fun k hk => ?_)
    rw [List.mem_range] at hk
    dsimp only
    rw [correlateFull_entry_eq x k hk]
  | loop =>
    refine List.map_congr_left (fun k hk => ?_)
    rw [List.mem_range] at hk
    dsimp only
    rw [loopAccum_eq x k hk]

/-- C1: for every finite real 1D sequence `x` of length `L`, every
autocorrelation mode returns the length-`L` sequence whose entry `k` is the
lag-`k` correlation sum normalised by `L - k`; in exact real arithmetic the
`fft` (zero-pad to `2L`, power spectrum, inverse transform, real part of the
first `L` samples), `numpy` (direct cross-correlation) and `loop` (naive
double loop) modes are equal, hence numerically equivalent within
floating-point tolerance. -/
theorem c1_autocorrelation_modes (x : List ℝ) :
    (∀ mode : AcMode, autocorrelation x mode = autocorrSpec x) ∧
    (autocorrelation x AcMode.fft).length = x.length :=
  ⟨fun mode => autocorrelation_eq_spec x mode, by simp [autocorrelation]⟩

theorem zipWith_sub_self (v : List ℝ) :
    List.zipWith (fun a b => a - b) v v = List.replicate v.length 0 := by
  induction v with
  | nil => rfl
  | cons a rest ih => simp [ih, List.replicate_succ]

theorem getD_replicate_zero (n i : ℕ) : (List.replicate n (0 : ℝ)).getD i 0 = 0 := by
  induction n generalizing i with
  | zero => rfl
  | succ n ih =>
    cases i with
    | zero => rfl
    | succ i => simpa [List.replicate_succ] using ih i

theorem autocorrSpec_replicate_zero (n : ℕ) :
    autocorrSpec (List.replicate n (0 : ℝ)) = List.replicate n 0 := by
  unfold autocorrSpec
  rw [List.length_replicate]
  have hz : ∀ k ∈ List.range n,
      ((∑ j ∈ Finset.range (n - k),
          (List.replicate n (0 : ℝ)).getD j 0 * (List.replicate n (0 : ℝ)).getD (j + k) 0) /
        ((n : ℝ) - k)) = 0 := by
    intro k _
    have hterm : ∀ j ∈ Finset.range (n - k),
        (List.replicate n (0 : ℝ)).getD j 0 * (List.replicate n (0 : ℝ)).getD (j + k) 0 = 0 :=
      fun j _ => by rw [getD_replicate_zero, zero_mul]
    rw [Finset.sum_congr rfl hterm, Finset.sum_const, smul_zero, zero_div]
  rw [List.map_congr_left hz]
  simp

theorem sabFun_replicate_zero (npts L dims t : ℕ) :
    sabFun (List.replicate npts (List.replicate L (0 : ℝ))) dims t = 0 := by
  unfold sabFun
  have hcol : ∀ d : ℕ, col (List.replicate npts (List.replicate L (0 : ℝ))) d
      = List.replicate npts 0 := by
    intro d
    unfold col
    rw [List.map_replicate, getD_replicate_zero]
  refine Finset.sum_eq_zero (fun d _ => ?_)
  rw [hcol d, autocorrelation_eq_spec, autocorrSpec_replicate_zero, getD_replicate_zero]

theorem particleMsd_replicate (npts : ℕ) (v : List ℝ) (dims : ℕ) :
    particleMsd (List.replicate npts v) dims = List.replicate npts 0 := by
  have hrec : recenter (List.replicate npts v)
      = List.replicate npts (List.replicate v.length 0) := by
    unfold recenter
    cases npts with
    | zero => rfl
    | succ n =>
      rw [show (List.replicate (n + 1) v).getD 0 [] = v from rfl, List.map_replicate,
        zipWith_sub_self]
  have hdsq : dsqList (List.replicate npts (List.replicate v.length 0))
      = List.replicate (npts + 1) (0 : ℝ) := by
    unfold dsqList
    rw [List.map_replicate]
    have hrow : ((List.replicate v.length (0 : ℝ)).map (fun x => x ^ 2)).sum = 0 := by
      rw [List.map_replicate]
      simp
    rw [hrow, ← List.replicate_succ']
  simp only [particleMsd, List.length_replicate, hrec, hdsq]
  simp only [getD_replicate_zero, add_zero, sub_zero, sabFun_replicate_zero, mul_zero,
    List.sum_replicate, smul_zero]
  have key : ∀ m : ℕ,
      ((List.range m).foldl
        (fun (acc : ℝ × List ℝ) (t : ℕ) => (acc.1, acc.2 ++ [acc.1 / ((npts : ℝ) - (t : ℝ))]))
        ((0 : ℝ), ([] : List ℝ)))
      = ((0 : ℝ), List.replicate m 0) := by
    intro m
    induction m with
    | zero => rfl
    | succ m ih =>
      rw [List.range_succ, List.foldl_append, List.foldl_cons, List.foldl_nil, ih]
      simp [List.replicate_succ']
  rw [key npts]

/-- C8: `compute_msd` on a single static particle (all coordinates constant
in time, hence zero displacement) returns an all-zero MSD curve and the
all-NaN standard-error output. -/
theorem c8_static_single_particle (npts : ℕ) (v : List ℝ) :
    msd [List.replicate npts v]
      = (List.replicate npts 0, StderrOut.curve (List.replicate npts none)) := by
  simp only [msd, List.length_cons, List.length_nil]
  have hgd : (([List.replicate npts v] : List (List (List ℝ))).getD 0 []) =
      List.replicate npts v := rfl
  rw [hgd, List.length_replicate]
  have hpm : ([List.replicate npts v] : List (List (List ℝ))).map
      (fun p => particleMsd p ((List.replicate npts v).getD 0 []).length)
      = [List.replicate npts 0] := by
    rw [List.map_cons, List.map_nil, particleMsd_replicate]
  rw [hpm]
  have hcurve : (List.range npts).map
      (fun t => (([List.replicate npts 0] : List (List ℝ)).map (fun l => l.getD t 0)).sum /
        ((0 + 1 : ℕ) : ℝ))
      = List.replicate npts 0 := by
    have hz : ∀ t ∈ List.range npts,
        ((([List.replicate npts 0] : List (List ℝ)).map (fun l => l.getD t 0)).sum /
          ((0 + 1 : ℕ) : ℝ)) = 0 := by
      intro t _
      rw [List.map_cons, List.map_nil, getD_replicate_zero]
      simp
    rw [List.map_congr_left hz]
    simp
  rw [hcurve]
  rw [if_neg (by norm_num)]

/-- C4 counterexample: on a concrete two-particle trajectory the second
return value of `compute_msd` is not a standard-error curve (a sequence):
the source's `np.mean(msd, axis=0)/np.sqrt(nparticles)` collapses the 1-D
ensemble curve to a single scalar. -/
theorem c4_counterexample :
    ((msd [[[0], [1]], [[0], [2]]]).2).isCurve = false := by
  simp only [msd]
  rw [if_pos (by norm_num : 1 < ([[[0], [1]], [[0], [2]]] : List (List (List ℝ))).length)]
  rfl

/-- C4 amended: for every trajectory with more than one particle the second
return value of `compute_msd` is the single scalar equal to the mean of the
returned MSD curve divided by `sqrt(n_particles)` (not a curve); for a
single-particle batch it is the all-NaN curve of length `T`.  This theorem
proves the multi-particle branch and relates it to the returned curve. -/
theorem c4_stderr_scalar (coords : List (List (List ℝ))) (h : 1 < coords.length) :
    (msd coords).2 = StderrOut.scalar
      ((msd coords).1.sum / ((msd coords).1.length : ℝ) / Real.sqrt (coords.length : ℝ)) ∧
    (msd coords).1.length = (coords.getD 0 []).length := by
  constructor
  · simp only [msd]
    rw [if_pos h]
  · simp [msd]

/-- Witness for C4's amended theorem at the concrete two-particle
trajectory. -/
theorem c4_witness :
    1 < ([[[0], [1]], [[0], [2]]] : List (List (List ℝ))).length ∧
    ((msd [[[0], [1]], [[0], [2]]]).2 = StderrOut.scalar
      ((msd [[[0], [1]], [[0], [2]]]).1.sum /
        (((msd [[[0], [1]], [[0], [2]]]).1.length : ℕ) : ℝ) /
        Real.sqrt (([[[0], [1]], [[0], [2]]] : List (List (List ℝ))).length : ℝ)) ∧
      (msd [[[0], [1]], [[0], [2]]]).1.length
        = (([[[0], [1]], [[0], [2]]] : List (List (List ℝ))).getD 0 []).length) :=
  ⟨by norm_num, c4_stderr_scalar [[[0], [1]], [[0], [2]]] (by norm_num)⟩


/-- C3 (evidence for the code bug): with an upper bound `t_max = 3.5` that
intersects `time = [0,1,2,3,4]`, `find_diffusivity`'s preprocessing keeps
`time[:ind]` where `ind = np.where(time < t_max)[0][0] = 0`, so the clipped
data is empty — not the four samples with `time < 3.5` that the claim and
the docstring describe. -/
theorem c3_upper_bound_clips_to_empty :
    fdPrep { min_exp := 0.991, min_Npts := 10, skip := 1, dim := 3, use_frac := 1,
             min_R2 := 0.97, bounds := (none, some (7 / 2)) }
      [0, 1, 2, 3, 4] [1, 2, 3, 4, 5] = .ok ([], []) := by
  have d0 : decide ((0 : ℝ) < 7 / 2) = true := by rw [decide_eq_true_eq]; norm_num
  have hfloor : (⌊(([(0 : ℝ), 1, 2, 3, 4] : List ℝ).length : ℝ) * (1 : ℝ)⌋).toNat = 5 := by
    have h5 : (⌊(([(0 : ℝ), 1, 2, 3, 4] : List ℝ).length : ℝ) * (1 : ℝ)⌋) = 5 := by norm_num
    rw [h5]
    rfl
  unfold fdPrep
  rw [hfloor]
  simp only [List.take, List.filter_cons, List.findIdx_cons, d0, cond_true,
    List.take_zero]
  norm_num

theorem linregress_slope_isSome (pts : List (ℝ × ℝ))
    (h : (linregress pts).rvalue ≠ 0) : ∃ s, (linregress pts).slope = some s := by
  by_cases hs : ssxm pts = 0
  · exfalso
    apply h
    simp only [linregress]
    rw [hs, zero_mul, Real.sqrt_zero, if_pos rfl]
  · exact ⟨_, by simp only [linregress]; rw [if_neg hs]⟩

theorem diffusivity_exponent_isSome (time msd : List ℝ) (dim : ℕ) (v : ℝ)
    (hr : (diffusivity time msd dim).r2 = some v) (hv : 0 < v) :
    ∃ e, (diffusivity time msd dim).exponent = some e := by
  simp only [diffusivity] at hr ⊢
  cases hx : optAll ((time.drop 1).map (fun u => nlog (u - time.getD 0 0))) with
  | none => rw [hx] at hr; simp at hr
  | some xv =>
    cases hy : optAll ((msd.drop 1).map (fun u => nlog (u - msd.getD 0 0))) with
    | none => rw [hx, hy] at hr; simp at hr
    | some yv =>
      rw [hx, hy] at hr
      simp only [Option.some_bind, Option.map_some', Option.some.injEq] at hr
      simp only [Option.some_bind, Option.map_some']
      apply linregress_slope_isSome
      intro hzero
      rw [hzero] at hr
      rw [← hr] at hv
      norm_num at hv

theorem winExponent_isSome (p : FDParams) (time msd : List ℝ) (w : ℕ × ℕ)
    (hR : 0 ≤ p.min_R2) (hp : winPasses p time msd w) :
    ∃ e, (winDiff p time msd w).exponent = some e := by
  unfold winPasses oGt at hp
  cases hr : (winDiff p time msd w).r2 with
  | none => rw [hr] at hp; exact absurd hp not_false
  | some v =>
    rw [hr] at hp
    exact diffusivity_exponent_isSome _ _ _ v hr (lt_of_le_of_lt hR hp)


theorem fdStep_not_passes (p : FDParams) (time msd : List ℝ) (s : FDState) (w : ℕ × ℕ)
    (hg : ¬ winPasses p time msd w) : fdStep p time msd s w = s := by
  unfold fdStep
  rw [if_neg hg]

theorem fdStep_best (p : FDParams) (time msd : List ℝ) (s : FDState) (w : ℕ × ℕ)
    (hg : winPasses p time msd w) :
    (fdStep p time msd s w).best =
      if oAbsLt1 (winDiff p time msd w).exponent (s.best.bind FitRec.exponent) ∨
          (s.best.bind FitRec.exponent) = none
      then some (winRec p time msd w) else s.best := by
  unfold fdStep
  rw [if_pos hg]
  dsimp only
  split_ifs <;> rfl

theorem fdStep_longest (p : FDParams) (time msd : List ℝ) (s : FDState) (w : ℕ × ℕ)
    (hg : winPasses p time msd w) :
    (fdStep p time msd s w).longest =
      if (oGe (winDiff p time msd w).exponent p.min_exp ∧
            oNatLe (s.longest.map FitRec.npts) w.1) ∨
          (s.longest.bind FitRec.exponent) = none then
        if (oNatLt (s.longest.map FitRec.npts) w.1 ∨
            oAbsLt1 (winDiff p time msd w).exponent (s.longest.bind FitRec.exponent)) ∨
            (s.longest.bind FitRec.exponent) = none
        then some (winRec p time msd w) else s.longest
      else s.longest := by
  unfold fdStep
  rw [if_pos hg]
  dsimp only
  by_cases hc1 : oAbsLt1 (winDiff p time msd w).exponent (s.best.bind FitRec.exponent) ∨
      (s.best.bind FitRec.exponent) = none
  · rw [if_pos hc1]
    dsimp only
    split_ifs <;> rfl
  · rw [if_neg hc1]
    split_ifs <;> rfl

theorem pairwise_of_forall_rel {α : Type} {R : α → α → Prop} (h : ∀ a b, R a b) :
    ∀ l : List α, l.Pairwise R
  | [] => List.Pairwise.nil
  | a :: l => List.Pairwise.cons (fun b _ => h a b) (pairwise_of_forall_rel h l)

theorem rangeStep_pairwise (a b s : ℕ) : (rangeStep a b s).Pairwise (· ≤ ·) := by
  unfold rangeStep
  rw [List.pairwise_map]
  exact (List.pairwise_lt_range _).imp
    (fun hij => Nat.add_le_add_left (Nat.mul_le_mul_left s (le_of_lt hij)) a)

theorem rangeStep_mem_lower {a b s x : ℕ} (hx : x ∈ rangeStep a b s) : a ≤ x := by
  unfold rangeStep at hx
  rw [List.mem_map] at hx
  obtain ⟨j, _, rfl⟩ := hx
  exact Nat.le_add_right a (s * j)

theorem fdWindows_fst_le {n minN skipv : ℕ} {w : ℕ × ℕ}
    (hw : w ∈ fdWindows n minN skipv) : minN ≤ w.1 := by
  unfold fdWindows at hw
  rw [List.mem_flatMap] at hw
  obtain ⟨npts, hnpts, hmem⟩ := hw
  rw [List.mem_map] at hmem
  obtain ⟨i, _, rfl⟩ := hmem
  exact rangeStep_mem_lower hnpts

theorem fdWindows_pairwise (n minN skipv : ℕ) :
    (fdWindows n minN skipv).Pairwise (fun u w => u.1 ≤ w.1) := by
  unfold fdWindows
  rw [List.flatMap_def, List.pairwise_flatten]
  constructor
  · intro l2 hl2
    rw [List.mem_map] at hl2
    obtain ⟨npts, _, rfl⟩ := hl2
    rw [List.pairwise_map]
    exact pairwise_of_forall_rel (fun a b => le_refl npts) _
  · rw [List.pairwise_map]
    refine (rangeStep_pairwise minN n skipv).imp ?_
    intro a b hab x hx y hy
    rw [List.mem_map] at hx hy
    obtain ⟨i, _, rfl⟩ := hx
    obtain ⟨j, _, rfl⟩ := hy
    exact hab


theorem oAbsLt1_some_some {u v : ℝ} : oAbsLt1 (some u) (some v) ↔ |u - 1| < |v - 1| :=
  Iff.rfl

theorem oAbsLt1_none_right (u : Option ℝ) : ¬ oAbsLt1 u none := by
  cases u <;> exact not_false

theorem bestInv_step (p : FDParams) (time msd : List ℝ) (hR : 0 ≤ p.min_R2)
    (acc : List (ℕ × ℕ)) (s : FDState) (w : ℕ × ℕ)
    (hinv : BestInv p time msd acc s) :
    BestInv p time msd (acc ++ [w]) (fdStep p time msd s w) := by
  obtain ⟨hnone, hsome⟩ := hinv
  by_cases hg : winPasses p time msd w
  · obtain ⟨ew, hew⟩ := winExponent_isSome p time msd w hR hg
    have hbest := fdStep_best p time msd s w hg
    by_cases hc : oAbsLt1 (winDiff p time msd w).exponent (s.best.bind FitRec.exponent) ∨
        (s.best.bind FitRec.exponent) = none
    · rw [if_pos hc] at hbest
      constructor
      · intro hb
        rw [hbest] at hb
        exact absurd hb (by simp)
      · intro r hr
        rw [hbest] at hr
        simp only [Option.some.injEq] at hr
        subst hr
        refine ⟨w, List.mem_append.mpr (Or.inr (List.mem_singleton.mpr rfl)), hg, rfl,
          ew, hew, ?_⟩
        intro w2 hw2 hp2
        rcases List.mem_append.mp hw2 with h2 | h2
        · rcases hc with hlt | hbn
          · cases hsb : s.best with
            | none =>
              rw [hsb, hew] at hlt
              exact absurd hlt (oAbsLt1_none_right _)
            | some rb =>
              obtain ⟨w0, hw0, hp0, hr0, eb, heb, hmin0⟩ := hsome rb hsb
              have heb2 : rb.exponent = some eb := heb
              have hlt2 : |ew - 1| < |eb - 1| := by
                rw [hsb, Option.some_bind, hew, heb2] at hlt
                exact oAbsLt1_some_some.mp hlt
              obtain ⟨e2, he2, hle2⟩ := hmin0 w2 h2 hp2
              exact ⟨e2, he2, le_trans (le_of_lt hlt2) hle2⟩
          · cases hsb : s.best with
            | none => exact absurd hp2 (hnone hsb w2 h2)
            | some rb =>
              obtain ⟨w0, hw0, hp0, hr0, eb, heb, hmin0⟩ := hsome rb hsb
              rw [hsb, Option.some_bind, heb] at hbn
              exact absurd hbn (by simp)
        · have h2' : w2 = w := List.mem_singleton.mp h2
          subst h2'
          exact ⟨ew, hew, le_refl _⟩
    · rw [if_neg hc] at hbest
      push_neg at hc
      constructor
      · intro hb
        rw [hbest] at hb
        exfalso
        apply hc.2
        rw [hb]
        rfl
      · intro r hr
        rw [hbest] at hr
        obtain ⟨w0, hw0, hp0, hr0, e, he, hmin0⟩ := hsome r hr
        refine ⟨w0, List.mem_append.mpr (Or.inl hw0), hp0, hr0, e, he, ?_⟩
        intro w2 hw2 hp2
        rcases List.mem_append.mp hw2 with h2 | h2
        · exact hmin0 w2 h2 hp2
        · have h2' : w2 = w := List.mem_singleton.mp h2
          subst h2'
          refine ⟨ew, hew, ?_⟩
          have hnl := hc.1
          rw [hr, Option.some_bind, he, hew] at hnl
          exact not_lt.mp (fun hlt => hnl (oAbsLt1_some_some.mpr hlt))
  · rw [fdStep_not_passes p time msd s w hg]
    constructor
    · intro hb w2 hw2
      rcases List.mem_append.mp hw2 with h2 | h2
      · exact hnone hb w2 h2
      · rw [List.mem_singleton.mp h2]
        exact hg
    · intro r hr
      obtain ⟨w0, hw0, hp0, hr0, e, he, hmin0⟩ := hsome r hr
      refine ⟨w0, List.mem_append.mpr (Or.inl hw0), hp0, hr0, e, he, ?_⟩
      intro w2 hw2 hp2
      rcases List.mem_append.mp hw2 with h2 | h2
      · exact hmin0 w2 h2 hp2
      · exfalso
        rw [List.mem_singleton.mp h2] at hp2
        exact hg hp2

theorem bestInv_fold (p : FDParams) (time msd : List ℝ) (hR : 0 ≤ p.min_R2) :
    ∀ (ws acc : List (ℕ × ℕ)) (s : FDState), BestInv p time msd acc s →
      BestInv p time msd (acc ++ ws) (ws.foldl (fdStep p time msd) s) := by
  intro ws
  induction ws with
  | nil =>
    intro acc s h
    simpa using h
  | cons w ws ih =>
    intro acc s h
    rw [List.foldl_cons]
    have hres := ih (acc ++ [w]) (fdStep p time msd s w)
      (bestInv_step p time msd hR acc s w h)
    rw [List.append_assoc, List.singleton_append] at hres
    exact hres


/-- C7: the `best` record, when not all-NaN, corresponds to a scanned
window — containing at least `min_Npts` points (no auto-correction under
the hypothesis `min_Npts ≤ len`) — whose log-log R² exceeded `min_R2` and
whose exponent is, among all gate-passing scanned windows, the closest to
1.0 in absolute difference, regardless of window length.  `0 ≤ min_R2`
keeps the gate meaningful (an R² is a square; a negative threshold lets
degenerate windows with scipy's `r = 0` fallback through with a NaN
exponent). -/
theorem c7_best_closest_to_one (p : FDParams) (time msd t2 m2 : List ℝ)
    (hR : 0 ≤ p.min_R2) (hlen : msd.length = time.length)
    (hprep : fdPrep p time msd = .ok (t2, m2)) (hmin : p.min_Npts ≤ t2.length) :
    findDiffusivity p time msd = .ok (fdScan p t2 m2) ∧
    effMinNpts p.min_Npts t2.length = p.min_Npts ∧
    BestOk p t2 m2 := by
  refine ⟨?_, ?_, ?_⟩
  · unfold findDiffusivity
    rw [if_neg (by omega), hprep]
    rfl
  · unfold effMinNpts
    rw [if_neg (by omega)]
  · intro r hr
    have h0 : BestInv p t2 m2 [] ⟨none, none⟩ := by
      constructor
      · intro _ w hw
        exact absurd hw (List.not_mem_nil w)
      · intro r2 hr2
        simp at hr2
    have hall := bestInv_fold p t2 m2 hR
      (fdWindows t2.length (effMinNpts p.min_Npts t2.length) p.skip) [] ⟨none, none⟩ h0
    rw [List.nil_append] at hall
    obtain ⟨w, hw, hp2, hrec, e, he, hmin2⟩ := hall.2 r hr
    exact ⟨w, hw, hp2, hrec, fdWindows_fst_le hw, e, he, hmin2⟩

theorem fdPrep_example :
    fdPrep fdExampleParams timeEx msdEx = .ok (timeEx, msdEx) := by
  unfold fdPrep fdExampleParams timeEx msdEx
  have hfloor : (⌊(([(0 : ℝ), 1, 16, 17] : List ℝ).length : ℝ) * (1 : ℝ)⌋).toNat = 4 := by
    have h4 : (⌊(([(0 : ℝ), 1, 16, 17] : List ℝ).length : ℝ) * (1 : ℝ)⌋) = 4 := by norm_num
    rw [h4]
    rfl
  rw [hfloor]
  simp [List.take]

/-- Witness for C7 at the example input: the hypotheses hold concretely and
the conclusion follows by the theorem. -/
theorem c7_witness :
    ((0 : ℝ) ≤ fdExampleParams.min_R2 ∧ msdEx.length = timeEx.length ∧
      fdPrep fdExampleParams timeEx msdEx = .ok (timeEx, msdEx) ∧
      fdExampleParams.min_Npts ≤ timeEx.length) ∧
    (findDiffusivity fdExampleParams timeEx msdEx
        = .ok (fdScan fdExampleParams timeEx msdEx) ∧
      effMinNpts fdExampleParams.min_Npts timeEx.length = fdExampleParams.min_Npts ∧
      BestOk fdExampleParams timeEx msdEx) :=
  ⟨⟨by norm_num [fdExampleParams], by norm_num [timeEx, msdEx], fdPrep_example,
      by norm_num [fdExampleParams, timeEx]⟩,
    c7_best_closest_to_one fdExampleParams timeEx msdEx timeEx msdEx
      (by norm_num [fdExampleParams]) (by norm_num [timeEx, msdEx]) fdPrep_example
      (by norm_num [fdExampleParams, timeEx])⟩


theorem longInv_step (p : FDParams) (time msd : List ℝ) (hR : 0 ≤ p.min_R2)
    (acc : List (ℕ × ℕ)) (s : FDState) (w : ℕ × ℕ)
    (hinv : LongInv p time msd acc s) :
    LongInv p time msd (acc ++ [w]) (fdStep p time msd s w) := by
  obtain ⟨hiff, hsome⟩ := hinv
  by_cases hg : winPasses p time msd w
  · obtain ⟨ew, hew⟩ := winExponent_isSome p time msd w hR hg
    have hlong := fdStep_longest p time msd s w hg
    cases hsl : s.longest with
    | none =>
      rw [hsl] at hlong
      simp only [Option.map_none, Option.none_bind] at hlong
      rw [if_pos (Or.inr trivial), if_pos (Or.inr trivial)] at hlong
      constructor
      · refine iff_of_false (by rw [hlong]; simp) ?_
        intro hall
        exact hall w (List.mem_append.mpr (Or.inr (List.mem_singleton.mpr rfl))) hg
      · intro r hr
        rw [hlong] at hr
        simp only [Option.some.injEq] at hr
        subst hr
        exact ⟨w, List.mem_append.mpr (Or.inr (List.mem_singleton.mpr rfl)), hg, rfl, ew, hew⟩
    | some rl =>
      obtain ⟨w0, hw0, hp0, hr0, el, hel⟩ := hsome rl hsl
      rw [hsl] at hlong
      simp only [Option.map_some', Option.some_bind, hel] at hlong
      have hres : (fdStep p time msd s w).longest = some (winRec p time msd w) ∨
          (fdStep p time msd s w).longest = some rl := by
        rw [hlong]
        split_ifs <;> simp
      constructor
      · refine iff_of_false ?_ ?_
        · rcases hres with h | h <;> rw [h] <;> simp
        · intro hall
          exact hall w0 (List.mem_append.mpr (Or.inl hw0)) hp0
      · intro r hr
        rcases hres with h | h <;> rw [h] at hr <;> simp only [Option.some.injEq] at hr <;>
          subst hr
        · exact ⟨w, List.mem_append.mpr (Or.inr (List.mem_singleton.mpr rfl)), hg, rfl,
            ew, hew⟩
        · exact ⟨w0, List.mem_append.mpr (Or.inl hw0), hp0, hr0, el, hel⟩
  · rw [fdStep_not_passes p time msd s w hg]
    constructor
    · constructor
      · intro h w2 hw2
        rcases List.mem_append.mp hw2 with h2 | h2
        · exact hiff.mp h w2 h2
        · rw [List.mem_singleton.mp h2]
          exact hg
      · intro hall
        exact hiff.mpr (fun w2 hw2 => hall w2 (List.mem_append.mpr (Or.inl hw2)))
    · intro r hr
      obtain ⟨w0, hw0, hp0, hr0, e, he⟩ := hsome r hr
      exact ⟨w0, List.mem_append.mpr (Or.inl hw0), hp0, hr0, e, he⟩

theorem longInv3_step (p : FDParams) (time msd : List ℝ) (hR : 0 ≤ p.min_R2)
    (acc : List (ℕ × ℕ)) (s : FDState) (w : ℕ × ℕ)
    (hqw : winPasses p time msd w → oGe (winDiff p time msd w).exponent p.min_exp)
    (hsort : ∀ w2 ∈ acc, w2.1 ≤ w.1)
    (hinv : LongInv3 p time msd acc s) :
    LongInv3 p time msd (acc ++ [w]) (fdStep p time msd s w) := by
  obtain ⟨hli, hmax⟩ := hinv
  refine ⟨longInv_step p time msd hR acc s w hli, ?_⟩
  by_cases hg : winPasses p time msd w
  · obtain ⟨ew, hew⟩ := winExponent_isSome p time msd w hR hg
    have hlong := fdStep_longest p time msd s w hg
    cases hsl : s.longest with
    | none =>
      rw [hsl] at hlong
      simp only [Option.map_none, Option.none_bind] at hlong
      rw [if_pos (Or.inr trivial), if_pos (Or.inr trivial)] at hlong
      have hnop : ∀ w2 ∈ acc, ¬ winPasses p time msd w2 := hli.1.mp hsl
      intro r hr
      rw [hlong] at hr
      simp only [Option.some.injEq] at hr
      subst hr
      constructor
      · intro w2 hw2 hp2
        rcases List.mem_append.mp hw2 with h2 | h2
        · exact absurd hp2 (hnop w2 h2)
        · rw [List.mem_singleton.mp h2]
          exact le_refl _
      · intro w2 hw2 hp2 _
        rcases List.mem_append.mp hw2 with h2 | h2
        · exact absurd hp2 (hnop w2 h2)
        · rw [List.mem_singleton.mp h2]
          exact ⟨ew, ew, hew, hew, le_refl _⟩
    | some rl =>
      obtain ⟨w0, hw0, hp0, hr0, el, hel⟩ := hli.2 rl hsl
      obtain ⟨hmax0, htie0⟩ := hmax rl hsl
      have hrlnpts : rl.npts = w0.1 := by rw [hr0]; rfl
      have hnl : rl.npts ≤ w.1 := by
        rw [hrlnpts]
        exact hsort w0 hw0
      rw [hsl] at hlong
      simp only [Option.map_some', Option.some_bind, hel] at hlong
      rw [if_pos (Or.inl ⟨hqw hg, hnl⟩)] at hlong
      by_cases hc3 : (oNatLt (some rl.npts) w.1 ∨
          oAbsLt1 (winDiff p time msd w).exponent (some el)) ∨ (some el : Option ℝ) = none
      · rw [if_pos hc3] at hlong
        intro r hr
        rw [hlong] at hr
        simp only [Option.some.injEq] at hr
        subst hr
        constructor
        · intro w2 hw2 hp2
          rcases List.mem_append.mp hw2 with h2 | h2
          · exact le_trans (hmax0 w2 h2 hp2) hnl
          · rw [List.mem_singleton.mp h2]
            exact le_refl _
        · intro w2 hw2 hp2 heq
          rcases List.mem_append.mp hw2 with h2 | h2
          · have h1 : w2.1 ≤ rl.npts := hmax0 w2 h2 hp2
            have heq2 : w2.1 = w.1 := heq
            have h2' : rl.npts = w.1 := le_antisymm hnl (by omega)
            obtain ⟨e0, e2, he0, he2, hle⟩ := htie0 w2 h2 hp2 (by omega)
            have he0el : e0 = el := by
              rw [hel] at he0
              exact (Option.some.injEq _ _).mp he0.symm
            rcases hc3 with hlt | hnone2
            · rcases hlt with hlt | habs
              · exfalso
                have : rl.npts < w.1 := hlt
                omega
              · refine ⟨ew, e2, hew, he2, ?_⟩
                rw [hew] at habs
                have habs2 : |ew - 1| < |el - 1| := oAbsLt1_some_some.mp habs
                rw [he0el] at hle
                exact le_trans (le_of_lt habs2) hle
            · exact absurd hnone2 (by simp)
          · rw [List.mem_singleton.mp h2]
            exact ⟨ew, ew, hew, hew, le_refl _⟩
      · rw [if_neg hc3] at hlong
        push_neg at hc3
        obtain ⟨⟨hnlt, hnabs⟩, _⟩ := hc3
        intro r hr
        rw [hlong] at hr
        simp only [Option.some.injEq] at hr
        subst hr
        constructor
        · intro w2 hw2 hp2
          rcases List.mem_append.mp hw2 with h2 | h2
          · exact hmax0 w2 h2 hp2
          · rw [List.mem_singleton.mp h2]
            have : ¬ (rl.npts < w.1) := hnlt
            omega
        · intro w2 hw2 hp2 heq
          rcases List.mem_append.mp hw2 with h2 | h2
          · exact htie0 w2 h2 hp2 heq
          · rw [hew] at hnabs
            have : ¬ (|ew - 1| < |el - 1|) := fun hcon => hnabs (oAbsLt1_some_some.mpr hcon)
            refine ⟨el, ew, hel, ?_, not_lt.mp this⟩
            rw [List.mem_singleton.mp h2]
            exact hew
  · rw [fdStep_not_passes p time msd s w hg]
    intro r hr
    obtain ⟨hmax0, htie0⟩ := hmax r hr
    constructor
    · intro w2 hw2 hp2
      rcases List.mem_append.mp hw2 with h2 | h2
      · exact hmax0 w2 h2 hp2
      · exfalso
        rw [List.mem_singleton.mp h2] at hp2
        exact hg hp2
    · intro w2 hw2 hp2 heq
      rcases List.mem_append.mp hw2 with h2 | h2
      · exact htie0 w2 h2 hp2 heq
      · exfalso
        rw [List.mem_singleton.mp h2] at hp2
        exact hg hp2


theorem longInv_fold (p : FDParams) (time msd : List ℝ) (hR : 0 ≤ p.min_R2) :
    ∀ (ws acc : List (ℕ × ℕ)) (s : FDState), LongInv p time msd acc s →
      LongInv p time msd (acc ++ ws) (ws.foldl (fdStep p time msd) s) := by
  intro ws
  induction ws with
  | nil =>
    intro acc s h
    simpa using h
  | cons w ws ih =>
    intro acc s h
    rw [List.foldl_cons]
    have hres := ih (acc ++ [w]) (fdStep p time msd s w)
      (longInv_step p time msd hR acc s w h)
    rw [List.append_assoc, List.singleton_append] at hres
    exact hres

theorem longInv3_fold (p : FDParams) (time msd : List ℝ) (hR : 0 ≤ p.min_R2) :
    ∀ (ws acc : List (ℕ × ℕ)) (s : FDState),
      (∀ w ∈ ws, winPasses p time msd w → oGe (winDiff p time msd w).exponent p.min_exp) →
      ((acc ++ ws).Pairwise (fun u w2 => u.1 ≤ w2.1)) →
      LongInv3 p time msd acc s →
      LongInv3 p time msd (acc ++ ws) (ws.foldl (fdStep p time msd) s) := by
  intro ws
  induction ws with
  | nil =>
    intro acc s _ _ h
    simpa using h
  | cons w ws ih =>
    intro acc s hq hpair h
    rw [List.foldl_cons]
    have hsort : ∀ w2 ∈ acc, w2.1 ≤ w.1 := by
      rw [List.pairwise_append] at hpair
      exact fun w2 hw2 => hpair.2.2 w2 hw2 w (List.mem_cons_self w ws)
    have hstep := longInv3_step p time msd hR acc s w
      (hq w (List.mem_cons_self w ws)) hsort h
    have hpair2 : ((acc ++ [w]) ++ ws).Pairwise (fun u w2 => u.1 ≤ w2.1) := by
      rw [List.append_assoc, List.singleton_append]
      exact hpair
    have hres := ih (acc ++ [w]) (fdStep p time msd s w)
      (fun w2 hw2 hp2 => hq w2 (List.mem_cons_of_mem w hw2) hp2) hpair2 hstep
    rw [List.append_assoc, List.singleton_append] at hres
    exact hres

/-- C2 amended: the `longest` record is all-NaN exactly when no scanned
window passed the R² gate; when set, it is the record of a gate-passing
scanned window, whose exponent may be below `min_exp` (the first
gate-passing window seeds the record regardless of `min_exp` — this is the
correction to the original claim); and whenever every gate-passing window
has exponent at least `min_exp`, the record has the most points among the
gate-passers, with ties broken by preferring the exponent closest to
1.0. -/
theorem c2_longest_amended (p : FDParams) (time msd t2 m2 : List ℝ)
    (hR : 0 ≤ p.min_R2) (hlen : msd.length = time.length)
    (hprep : fdPrep p time msd = .ok (t2, m2)) :
    findDiffusivity p time msd = .ok (fdScan p t2 m2) ∧ LongestOk p t2 m2 := by
  constructor
  · unfold findDiffusivity
    rw [if_neg (by omega), hprep]
    rfl
  · have h0 : LongInv p t2 m2 [] ⟨none, none⟩ := by
      constructor
      · exact iff_of_true rfl (fun w hw => absurd hw (List.not_mem_nil w))
      · intro r hr
        simp at hr
    have hli := longInv_fold p t2 m2 hR
      (fdWindows t2.length (effMinNpts p.min_Npts t2.length) p.skip) [] ⟨none, none⟩ h0
    rw [List.nil_append] at hli
    refine ⟨hli.1, ?_, ?_⟩
    · intro r hr
      obtain ⟨w, hw, hp2, hrec, _⟩ := hli.2 r hr
      exact ⟨w, hw, hp2, hrec⟩
    · intro hall r hr
      have h30 : LongInv3 p t2 m2 [] ⟨none, none⟩ := by
        refine ⟨h0, ?_⟩
        intro r2 hr2
        simp at hr2
      have h3 := longInv3_fold p t2 m2 hR
        (fdWindows t2.length (effMinNpts p.min_Npts t2.length) p.skip) [] ⟨none, none⟩
        hall (by rw [List.nil_append]; exact fdWindows_pairwise _ _ _) h30
      rw [List.nil_append] at h3
      exact h3.2 r hr

/-- Witness for C2's amended theorem at the example input. -/
theorem c2_witness :
    ((0 : ℝ) ≤ fdExampleParams.min_R2 ∧ msdEx.length = timeEx.length ∧
      fdPrep fdExampleParams timeEx msdEx = .ok (timeEx, msdEx)) ∧
    (findDiffusivity fdExampleParams timeEx msdEx
        = .ok (fdScan fdExampleParams timeEx msdEx) ∧
      LongestOk fdExampleParams timeEx msdEx) :=
  ⟨⟨by norm_num [fdExampleParams], by norm_num [timeEx, msdEx], fdPrep_example⟩,
    c2_longest_amended fdExampleParams timeEx msdEx timeEx msdEx
      (by norm_num [fdExampleParams]) (by norm_num [timeEx, msdEx]) fdPrep_example⟩


theorem linregress_logex :
    (linregress [((0 : ℝ), 0), (4 * Real.log 2, 3 * Real.log 2)]).rvalue = 1 ∧
    (linregress [((0 : ℝ), 0), (4 * Real.log 2, 3 * Real.log 2)]).slope = some (3 / 4) := by
  have hL2 : (0 : ℝ) < Real.log 2 := Real.log_pos (by norm_num)
  have hne2 : Real.log 2 ≠ 0 := ne_of_gt hL2
  have hsxm : ssxm [((0 : ℝ), 0), (4 * Real.log 2, 3 * Real.log 2)] = 4 * Real.log 2 ^ 2 := by
    unfold ssxm listMean
    simp only [List.map_cons, List.map_nil, List.sum_cons, List.sum_nil, List.length_cons,
      List.length_nil]
    push_cast
    ring
  have hsym : ssym [((0 : ℝ), 0), (4 * Real.log 2, 3 * Real.log 2)]
      = 9 / 4 * Real.log 2 ^ 2 := by
    unfold ssym listMean
    simp only [List.map_cons, List.map_nil, List.sum_cons, List.sum_nil, List.length_cons,
      List.length_nil]
    push_cast
    ring
  have hsxym : ssxym [((0 : ℝ), 0), (4 * Real.log 2, 3 * Real.log 2)]
      = 3 * Real.log 2 ^ 2 := by
    unfold ssxym listMean
    simp only [List.map_cons, List.map_nil, List.sum_cons, List.sum_nil, List.length_cons,
      List.length_nil]
    push_cast
    ring
  have hsq : Real.sqrt (ssxm [((0 : ℝ), 0), (4 * Real.log 2, 3 * Real.log 2)] *
        ssym [((0 : ℝ), 0), (4 * Real.log 2, 3 * Real.log 2)]) = 3 * Real.log 2 ^ 2 := by
    rw [hsxm, hsym, show 4 * Real.log 2 ^ 2 * (9 / 4 * Real.log 2 ^ 2)
      = (3 * Real.log 2 ^ 2) ^ 2 by ring]
    exact Real.sqrt_sq (by positivity)
  have hne3 : (3 : ℝ) * Real.log 2 ^ 2 ≠ 0 := by positivity
  constructor
  · simp only [linregress]
    rw [hsq, if_neg hne3, hsxym, div_self hne3]
  · simp only [linregress]
    rw [hsxm, hsxym, if_neg (by positivity : (4 : ℝ) * Real.log 2 ^ 2 ≠ 0)]
    congr 1
    field_simp
    ring

theorem diffusivity_example :
    (diffusivity [(0 : ℝ), 1, 16] [1, 2, 9] 3).exponent = some (3 / 4) ∧
    (diffusivity [(0 : ℝ), 1, 16] [1, 2, 9] 3).r2 = some 1 := by
  have h16 : Real.log 16 = 4 * Real.log 2 := by
    rw [show (16 : ℝ) = 2 ^ (4 : ℕ) by norm_num, Real.log_pow]
    push_cast
    ring
  have h8 : Real.log 8 = 3 * Real.log 2 := by
    rw [show (8 : ℝ) = 2 ^ (3 : ℕ) by norm_num, Real.log_pow]
    push_cast
    ring
  have hxs : (([(0 : ℝ), 1, 16].drop 1).map (fun v => nlog (v - [(0 : ℝ), 1, 16].getD 0 0)))
      = [some 0, some (4 * Real.log 2)] := by
    simp only [List.drop_succ_cons, List.drop_zero, List.map_cons, List.map_nil,
      List.getD_cons_zero]
    rw [show (1 : ℝ) - 0 = 1 by norm_num, show (16 : ℝ) - 0 = 16 by norm_num]
    unfold nlog
    rw [if_pos one_pos, if_pos (by norm_num : (0 : ℝ) < 16), Real.log_one, h16]
  have hys : (([(1 : ℝ), 2, 9].drop 1).map (fun v => nlog (v - [(1 : ℝ), 2, 9].getD 0 0)))
      = [some 0, some (3 * Real.log 2)] := by
    simp only [List.drop_succ_cons, List.drop_zero, List.map_cons, List.map_nil,
      List.getD_cons_zero]
    rw [show (2 : ℝ) - 1 = 1 by norm_num, show (9 : ℝ) - 1 = 8 by norm_num]
    unfold nlog
    rw [if_pos one_pos, if_pos (by norm_num : (0 : ℝ) < 8), Real.log_one, h8]
  constructor
  · simp only [diffusivity]
    rw [hxs, hys]
    simp only [optAll, Option.map_some', Option.some_bind, List.zip_cons_cons,
      List.zip_nil_right]
    exact linregress_logex.2
  · simp only [diffusivity]
    rw [hxs, hys]
    simp only [optAll, Option.map_some', Option.some_bind, List.zip_cons_cons,
      List.zip_nil_right]
    rw [linregress_logex.1]
    norm_num

theorem fdScan_example :
    (fdScan fdExampleParams timeEx msdEx).longest.bind FitRec.exponent = some (3 / 4) := by
  have hw : fdWindows timeEx.length (effMinNpts fdExampleParams.min_Npts timeEx.length)
      fdExampleParams.skip = [(3, 0)] := rfl
  have hslt : winSlice timeEx (3, 0) = [(0 : ℝ), 1, 16] := rfl
  have hslm : winSlice msdEx (3, 0) = [(1 : ℝ), 2, 9] := rfl
  have hdiff : winDiff fdExampleParams timeEx msdEx (3, 0)
      = diffusivity [(0 : ℝ), 1, 16] [1, 2, 9] 3 := by
    unfold winDiff
    rw [hslt, hslm]
    rfl
  have hpass : winPasses fdExampleParams timeEx msdEx (3, 0) := by
    unfold winPasses
    rw [hdiff, diffusivity_example.2]
    show fdExampleParams.min_R2 < 1
    norm_num [fdExampleParams]
  unfold fdScan
  rw [hw, List.foldl_cons, List.foldl_nil]
  rw [fdStep_longest fdExampleParams timeEx msdEx ⟨none, none⟩ (3, 0) hpass]
  have hnone : ((⟨none, none⟩ : FDState).longest.bind FitRec.exponent) = none := rfl
  rw [hnone, if_pos (Or.inr rfl), if_pos (Or.inr rfl)]
  simp only [Option.some_bind]
  show (winDiff fdExampleParams timeEx msdEx (3, 0)).exponent = some (3 / 4)
  rw [hdiff]
  exact diffusivity_example.1

/-- C2 counterexample: on `time = [0, 1, 16, 17]`, `msd = [1, 2, 9, 1/2]`
with `min_exp = 0.991`, `min_Npts = 3`, `min_R2 = 0.97`, the returned
`longest` record is not all-NaN — its exponent is exactly `3/4` — yet
`3/4 < min_exp`, contradicting the claim that a non-NaN `longest` record
always comes from a window whose exponent is at least `min_exp`. -/
theorem c2_counterexample :
    fdLongestExp (findDiffusivity fdExampleParams timeEx msdEx) = some (3 / 4) ∧
    (3 / 4 : ℝ) < fdExampleParams.min_exp := by
  constructor
  · have hok : findDiffusivity fdExampleParams timeEx msdEx
        = .ok (fdScan fdExampleParams timeEx msdEx) := by
      unfold findDiffusivity
      rw [if_neg (show ¬ msdEx.length ≠ timeEx.length by norm_num [timeEx, msdEx]),
        fdPrep_example]
      rfl
    rw [hok]
    unfold fdLongestExp
    exact fdScan_example
  · norm_num [fdExampleParams]

end MdSpa
